import Mathlib

/-!
Verification of the libdistmesh mesh generator.

The development shallowly embeds the two translation units of the
repository, `src/distmesh.cpp` (the relaxation driver, `boundingBox` and
`boundEdges`) and `src/utils.cpp` (`find_unique_bars` and
`project_points_to_function`), over exact real arithmetic.  Machine doubles
are modelled by `ℝ`; the single place where an IEEE infinity is essential —
the retriangulation buffer initialised to `INFINITY` — is modelled by
`EReal`, so that the first-iteration behaviour of the comparison against
`+∞` is provable rather than stipulated.  Point arrays are lists of rows,
simplex arrays are lists of index rows.

Functions of the repository that are not part of the provided sources
(`createInitialPoints`, `triangulation::delaunay`,
`getTriangulationEdgeIndices`, the values in `constants.h`) enter as
parameters, or — where a claim needs their behaviour — as definitions
modelled from the specification and marked as such.
-/

namespace Distmesh

/-- One row of the N×D coordinate array. -/
abbrev Point := List ℝ

/-- The point array: a list of rows. -/
abbrev Points := List Point

/-- One simplex: a row of point indices. -/
abbrev Simplex := List ℕ

/-- The simplex array. -/
abbrev Triangulation := List Simplex

/-- Canonical ordering of an edge's endpoint indices, larger index first
(`utils.cpp`, `find_unique_bars`, lines 93-99). -/
def canonicalBar (a b : ℕ) : ℕ × ℕ := if a > b then (a, b) else (b, a)

/-- The cyclically adjacent index pairs of one simplex row, canonicalized
(`utils.cpp` lines 91-101).  `ncols` is the number of vertex indices per
simplex row (the source uses `points->cols() + 1`). -/
def simplexBars (ncols : ℕ) (t : Simplex) : List (ℕ × ℕ) :=
  (List.range ncols).map fun i =>
    canonicalBar (t.getD i 0) (t.getD ((i + 1) % ncols) 0)

/-- All canonical bars of a simplex array, in traversal order
(outer loop over rows, inner loop over the `ncols` cyclic pairs). -/
def allBars (ncols : ℕ) (tri : Triangulation) : List (ℕ × ℕ) :=
  tri.flatMap (simplexBars ncols)

/-- The strict-weak order of `std::set<std::array<index, 2>>`:
lexicographic comparison of pairs (non-strict version). -/
def barLe (p q : ℕ × ℕ) : Prop := p.1 < q.1 ∨ (p.1 = q.1 ∧ p.2 ≤ q.2)

instance : DecidableRel barLe := fun p q => by
  unfold barLe
  infer_instance

/-- `utils.cpp` `find_unique_bars` (lines 84-114): the `std::set` of
canonical bars, emitted without duplicates in sorted order. -/
def find_unique_bars (ncols : ℕ) (tri : Triangulation) : List (ℕ × ℕ) :=
  ((allBars ncols tri).dedup).insertionSort barLe

/-- One incidence of the boundary-edge scan of `distmesh.cpp` lines 148-163:
insert the global edge index into the `std::set`; on a repeated index erase
its (first) occurrence from the vector, on a fresh index push it back. -/
def boundaryScanStep (st : Finset ℕ × List ℕ) (e : ℕ) : Finset ℕ × List ℕ :=
  if e ∈ st.1 then (st.1, st.2.erase e) else (insert e st.1, st.2 ++ [e])

/-- The boundary-edge scan over the row-major list of simplex-edge
incidences (`distmesh.cpp` lines 146-163). -/
def boundaryScan (l : List ℕ) : Finset ℕ × List ℕ :=
  l.foldl boundaryScanStep (∅, [])

/-- Modelled from the spec: `utils::getTriangulationEdgeIndices` is declared
but its definition is not among the provided sources.  Per spec §4.2 it maps
each simplex's local (cyclically adjacent, canonicalized) edges to their row
index in the global edge array. -/
def getTriangulationEdgeIndices (ncols : ℕ) (tri : Triangulation)
    (edges : List (ℕ × ℕ)) : List (List ℕ) :=
  tri.map fun t => (List.range ncols).map fun i =>
    edges.indexOf (canonicalBar (t.getD i 0) (t.getD ((i + 1) % ncols) 0))

/-- The edge array used by `boundEdges` (`distmesh.cpp` lines 133-140):
the externally supplied one, or a freshly extracted one when none is given. -/
def boundEdgesInput (ncols : ℕ) (tri : Triangulation)
    (externalEdges : List (ℕ × ℕ)) : List (ℕ × ℕ) :=
  if externalEdges.length = 0 then find_unique_bars ncols tri else externalEdges

/-- `distmesh.cpp` `boundEdges`, lines 130-169: the array of boundary edge
indices as built by the scan, before the 2-D orientation (sign-flip) pass of
lines 171-195. -/
def boundEdgesRaw (ncols : ℕ) (tri : Triangulation)
    (externalEdges : List (ℕ × ℕ)) : List ℕ :=
  (boundaryScan
    (getTriangulationEdgeIndices ncols tri
      (boundEdgesInput ncols tri externalEdges)).flatten).2

open scoped Classical

noncomputable section

/-- Elementwise difference of two coordinate rows. -/
def rowSub (a b : Point) : Point := List.zipWith (fun x y => x - y) a b

/-- Elementwise sum of two coordinate rows. -/
def rowAdd (a b : Point) : Point := List.zipWith (fun x y => x + y) a b

/-- A row scaled by a coefficient. -/
def rowSmul (c : ℝ) (a : Point) : Point := a.map fun x => c * x

/-- `.square().sum()` of a row. -/
def sqNorm (a : Point) : ℝ := (a.map fun x => x * x).sum

/-- Row `i` of a point array (`Eigen` row access). -/
def row (ps : Points) (i : ℕ) : Point := ps.getD i []

/-- `distmesh.cpp` lines 30-35: a `2 × dimension` array whose row 0 is
filled with `-1.0` and whose row 1 is filled with `1.0`. -/
def boundingBox (dimension : ℕ) : List (List ℝ) :=
  [List.replicate dimension (-1), List.replicate dimension 1]

/-- IEEE double machine epsilon, `std::numeric_limits<double>::epsilon()`. -/
def machineEpsilon : ℝ := (2 : ℝ) ^ (-52 : ℤ)

/-- The finite-difference step `sqrt(machineEpsilon) * initial_edge_length`
(`utils.cpp` lines 137-139). -/
def gradStep (h0 : ℝ) : ℝ := Real.sqrt machineEpsilon * h0

/-- The `deltaX` row while axis `k` is processed: `eps` at position `k` and
`0` elsewhere (`utils.cpp` lines 134-141: `fill(0.0)`, set entry `k`, use,
reset entry `k`). -/
def unitDelta (n k : ℕ) (eps : ℝ) : Point :=
  (List.range n).map fun j => if j = k then eps else 0

/-- Forward finite-difference gradient row (`utils.cpp` lines 132-141);
`d0` is the distance precomputed at `p`. -/
def gradRow (distanceFunction : Point → ℝ) (eps : ℝ) (p : Point) (d0 : ℝ) :
    List ℝ :=
  (List.range p.length).map fun k =>
    (distanceFunction (rowAdd p (unitDelta p.length k eps)) - d0) / eps

/-- The body of `utils.cpp` `project_points_to_function` for a single row:
rows are processed independently (each loop iteration reads and writes only
its own row, against distances precomputed at entry, lines 120-124).
Line 144: `row -= distance * gradient.row / gradient.row.square().sum()`. -/
def projectPoint (distanceFunction : Point → ℝ) (h0 : ℝ) (p : Point) :
    Point :=
  if 0 < distanceFunction p then
    rowSub p
      ((rowSmul (distanceFunction p)
        (gradRow distanceFunction (gradStep h0) p (distanceFunction p))).map
        fun x => x / sqNorm (gradRow distanceFunction (gradStep h0) p
          (distanceFunction p)))
  else p

/-- `utils.cpp` `project_points_to_function` (lines 117-148).  The
`outside.any()` guard of line 129 only skips work when no row would change,
so it does not alter the result. -/
def project (distanceFunction : Point → ℝ) (h0 : ℝ) (ps : Points) : Points :=
  ps.map (projectPoint distanceFunction h0)

/-- The projection step exactly as the specification words it (§4.3): for
`d ≤ 0` the point is untouched; for `d > 0` coordinate `k` becomes
`p_k - d * grad_k / |grad|²`, with the forward finite-difference gradient at
step `sqrt(machineEpsilon) * h0`.  Stated separately from the translation of
the code so that agreement is a theorem. -/
def projectPointSpec (distanceFunction : Point → ℝ) (h0 : ℝ) (p : Point) :
    Point :=
  if 0 < distanceFunction p then
    (List.range p.length).map fun k =>
      p.getD k 0 - distanceFunction p *
        (gradRow distanceFunction (Real.sqrt machineEpsilon * h0) p
          (distanceFunction p)).getD k 0 /
        sqNorm (gradRow distanceFunction (Real.sqrt machineEpsilon * h0) p
          (distanceFunction p))
  else p

/-- Edge vector, `distmesh.cpp` lines 85-86: row of endpoint 0 minus row of
endpoint 1. -/
def edgeVec (ps : Points) (e : ℕ × ℕ) : Point := rowSub (row ps e.1) (row ps e.2)

/-- Euclidean edge length, line 87. -/
def edgeLen (ps : Points) (e : ℕ × ℕ) : ℝ := Real.sqrt (sqNorm (edgeVec ps e))

/-- Edge midpoint, lines 90-92: `0.5 * (row e0 + row e1)`. -/
def midRow (ps : Points) (e : ℕ × ℕ) : Point :=
  rowSmul (0.5 : ℝ) (rowAdd (row ps e.1) (row ps e.2))

/-- `1.0 + 0.4 / std::pow(2.0, dimension - 1)` (line 95); the subtraction is
on unsigned integers, matched by ℕ subtraction for `dimension ≥ 1`. -/
def lengthBias (dimension : ℕ) : ℝ := 1 + 0.4 / 2 ^ (dimension - 1)

/-- `edgeLength.pow(dimension).sum()` (line 96). -/
def lengthPowSum (dimension : ℕ) (ps : Points) (edges : List (ℕ × ℕ)) : ℝ :=
  (edges.map fun e => edgeLen ps e ^ dimension).sum

/-- `desiredElementSize.pow(dimension).sum()` (line 96). -/
def sizePowSum (sizeFn : Point → ℝ) (dimension : ℕ) (ps : Points)
    (edges : List (ℕ × ℕ)) : ℝ :=
  (edges.map fun e => sizeFn (midRow ps e) ^ dimension).sum

/-- The global scale factor `(Σ len^D / Σ size^D)^(1/D)`, lines 96-97
(`std::pow` with real exponent, hence `Real.rpow`). -/
def scaleFactor (sizeFn : Point → ℝ) (dimension : ℕ) (ps : Points)
    (edges : List (ℕ × ℕ)) : ℝ :=
  (lengthPowSum dimension ps edges / sizePowSum sizeFn dimension ps edges) ^
    ((1 : ℝ) / (dimension : ℝ))

/-- Desired edge length, lines 95-97. -/
def desiredEdgeLength (sizeFn : Point → ℝ) (dimension : ℕ) (ps : Points)
    (edges : List (ℕ × ℕ)) (e : ℕ × ℕ) : ℝ :=
  sizeFn (midRow ps e) * lengthBias dimension *
    scaleFactor sizeFn dimension ps edges

/-- Per-edge scalar force, lines 100-101:
`((desiredEdgeLength - edgeLength) / edgeLength).max(0.0)`. -/
def forceMag (sizeFn : Point → ℝ) (dimension : ℕ) (ps : Points)
    (edges : List (ℕ × ℕ)) (e : ℕ × ℕ) : ℝ :=
  max ((desiredEdgeLength sizeFn dimension ps edges e - edgeLen ps e) /
    edgeLen ps e) 0

/-- Per-edge force row, lines 100-101. -/
def forceVec (sizeFn : Point → ℝ) (dimension : ℕ) (ps : Points)
    (edges : List (ℕ × ℕ)) (e : ℕ × ℕ) : Point :=
  rowSmul (forceMag sizeFn dimension ps edges e) (edgeVec ps e)

/-- The per-edge scalar force exactly as the specification words it (§4.4
step 2 / claim C5), with every subexpression spelled out. -/
def forceMagSpec (sizeFn : Point → ℝ) (dimension : ℕ) (ps : Points)
    (edges : List (ℕ × ℕ)) (e : ℕ × ℕ) : ℝ :=
  let length := edgeLen ps e
  let scale := ((edges.map fun e2 => edgeLen ps e2 ^ dimension).sum /
      (edges.map fun e2 => sizeFn (midRow ps e2) ^ dimension).sum) ^
      ((1 : ℝ) / (dimension : ℝ))
  let L0 := sizeFn (midRow ps e) * (1 + 0.4 / 2 ^ (dimension - 1)) * scale
  max ((L0 - length) / length) 0

/-- The inputs of one relaxation run.  `constants.h` is not among the
provided sources, so the configuration constants of spec §6 are carried as
fields; the Delaunay primitive is the black-box collaborator of spec §6. -/
structure Params where
  dimension : ℕ
  distanceFunction : Point → ℝ
  elementSizeFunction : Point → ℝ
  initialPointDistance : ℝ
  delaunay : Points → Triangulation
  fixedCount : ℕ
  maxSteps : ℕ
  retriangulationThreshold : ℝ
  geometryEvaluationThreshold : ℝ
  pointsMovementThreshold : ℝ
  deltaT : ℝ

/-- `distmesh.cpp` lines 108-110: the first endpoint of an edge receives
`+ deltaT * force` unless its index lies in the fixed-points range
(`edgeIndices(edge, 0) >= fixedPoints.rows()` is the move condition). -/
def integrateFirst (P : Params) (acc : Points) (ef : (ℕ × ℕ) × Point) :
    Points :=
  if P.fixedCount ≤ ef.1.1 then
    acc.set ef.1.1 (rowAdd (row acc ef.1.1) (rowSmul P.deltaT ef.2))
  else acc

/-- `distmesh.cpp` lines 107-114: both endpoint updates of one edge, in
source order (the second endpoint receives `- deltaT * force`, reading the
array already updated for the first endpoint). -/
def integrateEdge (P : Params) (acc : Points) (ef : (ℕ × ℕ) × Point) :
    Points :=
  if P.fixedCount ≤ ef.1.2 then
    (integrateFirst P acc ef).set ef.1.2
      (rowSub (row (integrateFirst P acc ef) ef.1.2) (rowSmul P.deltaT ef.2))
  else integrateFirst P acc ef

/-- `distmesh.cpp` lines 99-114: force vectors are evaluated once against
the pre-move points, then applied edge by edge. -/
def integrate (P : Params) (ps : Points) (edges : List (ℕ × ℕ)) : Points :=
  (edges.zip (edges.map fun e =>
    forceVec P.elementSizeFunction P.dimension ps edges e)).foldl
    (integrateEdge P) ps

/-- `distmesh.cpp` lines 69-73: the centroid accumulator (the variable is
named `circumcenter` in the source) — column-by-column sum of the gathered
vertex rows, each divided by the column count `dimension + 1`. -/
def centroid (dimension : ℕ) (ps : Points) (t : Simplex) : Point :=
  (List.range (dimension + 1)).foldl
    (fun acc j => rowAdd acc
      ((row ps (t.getD j 0)).map fun x => x / ((dimension : ℝ) + 1)))
    (List.replicate dimension 0)

/-- The simplex centroid as the specification words it: the per-coordinate
mean of the `dimension + 1` vertex rows. -/
def centroidSpec (dimension : ℕ) (ps : Points) (t : Simplex) : Point :=
  (List.range dimension).map fun m =>
    ((List.range (dimension + 1)).map fun j =>
      (row ps (t.getD j 0)).getD m 0).sum / ((dimension : ℝ) + 1)

/-- `distmesh.cpp` lines 66-78: recompute the Delaunay triangulation, keep
only simplices whose centroid is strictly inside the domain by the
geometry-evaluation margin, and rebuild the unique edge array from the
surviving simplices. -/
def retriangulate (P : Params) (ps : Points) : Triangulation × List (ℕ × ℕ) :=
  let tri := P.delaunay ps
  let tri2 := tri.filter fun t => decide
    (P.distanceFunction (centroid P.dimension ps t) <
      -P.geometryEvaluationThreshold * P.initialPointDistance)
  (tri2, find_unique_bars (P.dimension + 1) tri2)

/-- IEEE square root on `[0, +∞]`: `+∞ ↦ +∞`, finite values via
`Real.sqrt`.  (`-∞` cannot arise from a sum of squares; it is mapped to `⊥`
as junk.) -/
def esqrt (x : EReal) : EReal :=
  if x = ⊤ then ⊤ else if x = ⊥ then ⊥ else ((Real.sqrt x.toReal : ℝ) : EReal)

/-- Row displacement `sqrt(Σ (p_j - b_j)²)` in extended reals: buffer
entries may be the `INFINITY` of the initialisation at `distmesh.cpp`
lines 54-55. -/
def rowDispE (p : Point) (b : List EReal) : EReal :=
  esqrt (List.zipWith
    (fun x y => ((x : ℝ) - y : EReal) * ((x : ℝ) - y : EReal)) p b).sum

/-- `maxCoeff()` over a list of extended reals. -/
def maxListE (l : List EReal) : EReal := l.foldr max ⊥

/-- The state carried across iterations of the main loop: the point array,
the current triangulation and edge array, and the retriangulation snapshot
buffer (extended reals, because it starts filled with `INFINITY`). -/
structure LoopState where
  points : Points
  triangulation : Triangulation
  edgeIndices : List (ℕ × ℕ)
  retriBuffer : List (List EReal)

/-- Retriangulation criterion, `distmesh.cpp` lines 63-64: the maximal row
displacement against the snapshot buffer exceeds
`retriangulationThreshold * initialPointDistance`. -/
def retriTest (P : Params) (s : LoopState) : Prop :=
  ((P.retriangulationThreshold * P.initialPointDistance : ℝ) : EReal) <
    maxListE (List.zipWith rowDispE s.points s.retriBuffer)

/-- The `(triangulation, edgeIndices, retriBuffer)` triple after the
conditional retriangulation block, lines 62-82. -/
def retriUpdate (P : Params) (s : LoopState) :
    Triangulation × List (ℕ × ℕ) × List (List EReal) :=
  if retriTest P s then
    ((retriangulate P s.points).1, (retriangulate P s.points).2,
      s.points.map fun r => r.map fun x => ((x : ℝ) : EReal))
  else (s.triangulation, s.edgeIndices, s.retriBuffer)

/-- One iteration of the main loop, `distmesh.cpp` lines 62-117:
conditional retriangulation, force computation and integration, boundary
projection. -/
def distmeshStep (P : Params) (s : LoopState) : LoopState where
  points := project P.distanceFunction P.initialPointDistance
    (integrate P s.points (retriUpdate P s).2.1)
  triangulation := (retriUpdate P s).1
  edgeIndices := (retriUpdate P s).2.1
  retriBuffer := (retriUpdate P s).2.2

/-- `maxCoeff()` over a list of reals (used on lists of non-negative
displacements, where the `0` seed is neutral). -/
def maxListR (l : List ℝ) : ℝ := l.foldr max 0

/-- Maximal per-row displacement between two point arrays. -/
def maxDisp (a b : Points) : ℝ :=
  maxListR (List.zipWith (fun p q => Real.sqrt (sqNorm (rowSub p q))) a b)

/-- Stop criterion, lines 120-121: the displacement of this single step
(against `stopCriterionBuffer`, which is assigned the pre-integration
points at line 104) is below `pointsMovementThreshold * h0`. -/
def stopNow (P : Params) (oldPoints newPoints : Points) : Prop :=
  maxDisp newPoints oldPoints < P.pointsMovementThreshold * P.initialPointDistance

/-- The `for` loop of lines 61-124 with its `break`: runs at most as many
iterations as the fuel (`constants::maxSteps`), stopping after the first
iteration whose displacement is below the threshold.  Returns the final
state together with the number of iterations executed. -/
def distmeshLoop (P : Params) : ℕ → LoopState → LoopState × ℕ
  | 0, s => (s, 0)
  | n + 1, s =>
    let s2 := distmeshStep P s
    if stopNow P s.points s2.points then (s2, 1)
    else
      let r := distmeshLoop P n s2
      (r.1, r.2 + 1)

/-- The state before the first loop iteration, lines 46-60: freshly sampled
points, their Delaunay triangulation, a default-constructed (empty) edge
array, and the retriangulation buffer filled with `INFINITY`. -/
def initState (P : Params) (initialPoints : Points) : LoopState where
  points := initialPoints
  triangulation := P.delaunay initialPoints
  edgeIndices := []
  retriBuffer := initialPoints.map fun r => r.map fun _ => (⊤ : EReal)

/-- `distmesh::distmesh`, lines 38-127.  `utils::createInitialPoints` is
not among the provided sources, so the sampled initial point array is taken
as a parameter; the function returns the final `(points, triangulation)`
pair. -/
def distmesh (P : Params) (initialPoints : Points) : Points × Triangulation :=
  ((distmeshLoop P P.maxSteps (initState P initialPoints)).1.points,
   (distmeshLoop P P.maxSteps (initState P initialPoints)).1.triangulation)

/-- The `n`-th iterate of the loop body (no stop test), used to state the
termination behaviour of `distmeshLoop`. -/
def iterState (P : Params) (s : LoopState) : ℕ → LoopState
  | 0 => s
  | n + 1 => distmeshStep P (iterState P s n)

/-- The stop criterion seen at iteration `j` of the run started in `s`:
the displacement of step `j + 1` is below the threshold. -/
def stoppedAt (P : Params) (s : LoopState) (j : ℕ) : Prop :=
  stopNow P (iterState P s j).points (iterState P s (j + 1)).points

/-- A concrete half-space distance field `d(p) = p_0 - 1` (boundary at
`x = 1`, inside to the left), used for concrete evaluations. -/
def dfHalf : Point → ℝ := fun p => p.getD 0 0 - 1

/-- A concrete parameter block for one-dimensional runs with one fixed
point, a constant size field and a trivial Delaunay collaborator. -/
def exampleParams : Params where
  dimension := 1
  distanceFunction := dfHalf
  elementSizeFunction := fun _ => 1
  initialPointDistance := 1
  delaunay := fun _ => []
  fixedCount := 1
  maxSteps := 10
  retriangulationThreshold := 0.1
  geometryEvaluationThreshold := 0.001
  pointsMovementThreshold := 2
  deltaT := 0.2

/-- A variant of `exampleParams` whose Delaunay collaborator returns one
degenerate 1-simplex, used to exercise the retriangulation branch. -/
def exampleParams2 : Params :=
  { exampleParams with delaunay := fun _ => [[0, 0]] }

end

/-! ### General helper lemmas -/

lemma zipWith_self {α β : Type} (f : α → α → β) (l : List α) :
    List.zipWith f l l = l.map fun a => f a a := by
  induction l with
  | nil => rfl
  | cons x t ih => simp [ih]

lemma canonicalBar_snd_le_fst (a b : ℕ) :
    (canonicalBar a b).2 ≤ (canonicalBar a b).1 := by
  unfold canonicalBar
  split <;> dsimp <;> omega

lemma sqNorm_rowSub_self (r : Point) : sqNorm (rowSub r r) = 0 := by
  unfold rowSub sqNorm
  apply List.sum_eq_zero
  intro y hy
  simp only [zipWith_self, List.map_map, List.mem_map, Function.comp] at hy
  obtain ⟨a, _, rfl⟩ := hy
  simp

lemma count_eq_one_of_nodup_mem {α : Type} [BEq α] [LawfulBEq α] {a : α}
    {l : List α} (h : l.Nodup) (ha : a ∈ l) : l.count a = 1 := by
  induction l with
  | nil => simp at ha
  | cons x t ih =>
    rw [List.count_cons]
    rcases List.mem_cons.mp ha with rfl | hat
    · rw [List.count_eq_zero.mpr (by simpa using (List.nodup_cons.mp h).1)]
      simp
    · have hx : x ≠ a := by
        rintro rfl
        exact (List.nodup_cons.mp h).1 hat
      rw [ih (List.nodup_cons.mp h).2 hat]
      simp [hx]

lemma canonicalBar_comm (a b : ℕ) : canonicalBar a b = canonicalBar b a := by
  unfold canonicalBar
  rcases Nat.lt_trichotomy a b with h | h | h
  · rw [if_neg (by omega), if_pos h]
  · subst h; simp
  · rw [if_pos h, if_neg (by omega)]

/-! ### Edge extraction (claim C2) -/

lemma mem_find_unique_bars (ncols : ℕ) (tri : Triangulation) (p : ℕ × ℕ) :
    p ∈ find_unique_bars ncols tri ↔ p ∈ allBars ncols tri := by
  unfold find_unique_bars
  rw [(List.perm_insertionSort barLe _).mem_iff, List.mem_dedup]

lemma nodup_find_unique_bars (ncols : ℕ) (tri : Triangulation) :
    (find_unique_bars ncols tri).Nodup := by
  unfold find_unique_bars
  exact ((List.perm_insertionSort barLe _).nodup_iff).mpr (List.nodup_dedup _)

lemma mem_allBars (ncols : ℕ) (tri : Triangulation) (p : ℕ × ℕ) :
    p ∈ allBars ncols tri ↔ ∃ t ∈ tri, ∃ i, i < ncols ∧
      p = canonicalBar (t.getD i 0) (t.getD ((i + 1) % ncols) 0) := by
  unfold allBars simplexBars
  simp only [List.mem_flatMap, List.mem_map, List.mem_range]
  constructor
  · rintro ⟨t, ht, i, hi, rfl⟩
    exact ⟨t, ht, i, hi, rfl⟩
  · rintro ⟨t, ht, i, hi, rfl⟩
    exact ⟨t, ht, i, hi, rfl⟩

/-- Claim C2, counterexample: for a 3-simplex (tetrahedron, `ncols = 4`,
hence `D = 3`) the edge extractor does not produce the unordered pair of
vertices 0 and 2 — only cyclically adjacent pairs are enumerated — so the
claim's universal coverage statement fails as stated. -/
theorem c2_counterexample :
    ¬ ((find_unique_bars 4 [[0, 1, 2, 3]]).Nodup ∧
      ∀ t ∈ ([[0, 1, 2, 3]] : Triangulation), ∀ a ∈ t, ∀ b ∈ t, a ≠ b →
        canonicalBar a b ∈ find_unique_bars 4 [[0, 1, 2, 3]]) := by
  decide

/-- Claim C2, amended: the extracted edge list never contains a duplicate
unordered pair (it is duplicate-free and each entry is canonicalized with
the larger index first); a pair appears in it exactly when it is a
canonicalized cyclically adjacent pair of some simplex row; and for
triangle rows (`ncols = 3`, the 2-D case) every unordered pair of distinct
vertices of every row appears exactly once. -/
theorem c2_amended (ncols : ℕ) (tri : Triangulation) :
    (find_unique_bars ncols tri).Nodup ∧
    (∀ p ∈ find_unique_bars ncols tri, p.2 ≤ p.1) ∧
    (∀ p : ℕ × ℕ, p ∈ find_unique_bars ncols tri ↔ ∃ t ∈ tri, ∃ i, i < ncols ∧
      p = canonicalBar (t.getD i 0) (t.getD ((i + 1) % ncols) 0)) ∧
    (ncols = 3 → ∀ t ∈ tri, t.length = 3 → ∀ a ∈ t, ∀ b ∈ t, a ≠ b →
      (find_unique_bars ncols tri).count (canonicalBar a b) = 1) := by
  refine ⟨nodup_find_unique_bars ncols tri, ?_, ?_, ?_⟩
  · intro p hp
    rw [mem_find_unique_bars, mem_allBars] at hp
    obtain ⟨t, _, i, _, rfl⟩ := hp
    exact canonicalBar_snd_le_fst _ _
  · intro p
    rw [mem_find_unique_bars, mem_allBars]
  · rintro rfl t ht hlen a ha b hb hab
    obtain ⟨ja, hja, rfl⟩ := List.getElem_of_mem ha
    obtain ⟨jb, hjb, rfl⟩ := List.getElem_of_mem hb
    have hne : ja ≠ jb := by
      intro hjj
      exact hab (by subst hjj; rfl)
    have hja3 : ja < 3 := by omega
    have hjb3 : jb < 3 := by omega
    have hcases : jb = (ja + 1) % 3 ∨ ja = (jb + 1) % 3 := by omega
    have hmem : canonicalBar (t.get ⟨ja, hja⟩) (t.get ⟨jb, hjb⟩) ∈
        find_unique_bars 3 tri := by
      rw [mem_find_unique_bars, mem_allBars]
      rcases hcases with hc | hc
      · refine ⟨t, ht, ja, hja3, ?_⟩
        rw [List.getD_eq_getElem t 0 hja, List.getD_eq_getElem t 0 (by omega)]
        simp only [← hc, List.get_eq_getElem]
      · refine ⟨t, ht, jb, hjb3, ?_⟩
        rw [List.getD_eq_getElem t 0 hjb, List.getD_eq_getElem t 0 (by omega)]
        simp only [← hc, List.get_eq_getElem]
        exact canonicalBar_comm _ _
    simpa using count_eq_one_of_nodup_mem (nodup_find_unique_bars 3 tri)
      (by simpa using hmem)

/-! ### Boundary-edge scan (claim C8) -/

lemma boundaryScan_invariant (l : List ℕ) :
    ∀ (seen : List ℕ) (st : Finset ℕ × List ℕ),
      st.1 = seen.toFinset → st.2.Nodup →
      (∀ e, e ∈ st.2 ↔ seen.count e = 1) →
      (l.foldl boundaryScanStep st).1 = (seen ++ l).toFinset ∧
      (l.foldl boundaryScanStep st).2.Nodup ∧
      ∀ e, e ∈ (l.foldl boundaryScanStep st).2 ↔ (seen ++ l).count e = 1 := by
  induction l with
  | nil =>
    intro seen st h1 h2 h3
    simpa using ⟨h1, h2, h3⟩
  | cons x l ih =>
    intro seen st h1 h2 h3
    have hstep : List.foldl boundaryScanStep st (x :: l) =
        List.foldl boundaryScanStep (boundaryScanStep st x) l := rfl
    rw [hstep]
    have key : (boundaryScanStep st x).1 = (seen ++ [x]).toFinset ∧
        (boundaryScanStep st x).2.Nodup ∧
        ∀ e, e ∈ (boundaryScanStep st x).2 ↔ (seen ++ [x]).count e = 1 := by
      by_cases hx : x ∈ st.1
      · have hxseen : x ∈ seen := by
          rw [h1] at hx
          exact List.mem_toFinset.mp hx
        have hstx : boundaryScanStep st x = (st.1, st.2.erase x) := by
          unfold boundaryScanStep
          rw [if_pos hx]
        refine ⟨?_, ?_, ?_⟩
        · rw [hstx, h1]
          simp only [List.toFinset_append, List.toFinset_cons, List.toFinset_nil,
            insert_emptyc_eq]
          rw [Finset.union_eq_left.mpr (by simpa using List.mem_toFinset.mpr hxseen)]
        · rw [hstx]
          exact List.Nodup.sublist (List.erase_sublist x st.2) h2
        · intro e
          rw [hstx]
          by_cases he : e = x
          · subst he
            have hnotmem : e ∉ st.2.erase e := by
              rw [← List.count_eq_zero]
              have hle := List.nodup_iff_count_le_one.mp h2 e
              have := List.count_erase_self e st.2
              omega
            have hcount : ¬ (seen ++ [e]).count e = 1 := by
              rw [List.count_append]
              have h1le : 1 ≤ seen.count e := List.count_pos_iff.mpr hxseen
              have hone : List.count e [e] = 1 := by simp
              omega
            exact iff_of_false hnotmem hcount
          · rw [List.mem_erase_of_ne he, h3 e, List.count_append]
            have hone : List.count e [x] = 0 := by
              rw [List.count_singleton', if_neg fun hh => he hh.symm]
            rw [hone]
            omega
      · have hxseen : x ∉ seen := by
          rw [h1] at hx
          exact fun hc => hx (List.mem_toFinset.mpr hc)
        have hstx : boundaryScanStep st x = (insert x st.1, st.2 ++ [x]) := by
          unfold boundaryScanStep
          rw [if_neg hx]
        have hxvec : x ∉ st.2 := by
          intro hc
          have := (h3 x).mp hc
          exact hxseen (List.count_pos_iff.mp (by omega))
        refine ⟨?_, ?_, ?_⟩
        · rw [hstx, h1]
          simp only [List.toFinset_append, List.toFinset_cons, List.toFinset_nil,
            insert_emptyc_eq]
          rw [Finset.union_comm]
          exact (Finset.insert_eq x seen.toFinset)
        · rw [hstx, List.nodup_append]
          refine ⟨h2, List.nodup_singleton x, ?_⟩
          intro a ha hb
          rw [List.mem_singleton] at hb
          subst hb
          exact hxvec ha
        · intro e
          rw [hstx]
          by_cases he : e = x
          · subst he
            have hz : seen.count e = 0 := List.count_eq_zero.mpr hxseen
            have hmem : e ∈ st.2 ++ [e] := by simp
            have hc : (seen ++ [e]).count e = 1 := by
              rw [List.count_append, hz]
              simp
            simp [hmem, hc]
          · have hone : List.count e [x] = 0 := by
              rw [List.count_singleton', if_neg fun hh => he hh.symm]
            rw [List.mem_append, List.count_append, hone]
            have hnotx : e ∉ [x] := by simp [he]
            simp only [hnotx, or_false]
            rw [h3 e]
            omega
    obtain ⟨k1, k2, k3⟩ := key
    have := ih (seen ++ [x]) (boundaryScanStep st x) k1 k2 k3
    simpa using this

lemma boundaryScan_spec (l : List ℕ) :
    (boundaryScan l).2.Nodup ∧ ∀ e, e ∈ (boundaryScan l).2 ↔ l.count e = 1 := by
  have h := boundaryScan_invariant l [] (∅, []) (by simp) (by simp) (by simp)
  exact ⟨h.2.1, by simpa using h.2.2⟩

/-- Claim C8: the boundary-edge list produced by `boundEdges` before the 2-D
sign-flipping pass is duplicate-free and contains a global edge index if and
only if that index occurs exactly once across the row-major list of all
simplex-edge incidences. -/
theorem c8_boundEdges (ncols : ℕ) (tri : Triangulation)
    (externalEdges : List (ℕ × ℕ)) :
    (boundEdgesRaw ncols tri externalEdges).Nodup ∧
    ∀ e, e ∈ boundEdgesRaw ncols tri externalEdges ↔
      ((getTriangulationEdgeIndices ncols tri
        (boundEdgesInput ncols tri externalEdges)).flatten).count e = 1 := by
  unfold boundEdgesRaw
  exact boundaryScan_spec _

/-! ### Bounding box (claim C9) -/

/-- Claim C9, counterexample: for dimension 1 the claim asserts a `1 × 2`
result with single row `[-1, 1]`, but `boundingBox 1` is the `2 × 1` array
`[[-1], [1]]`. -/
theorem c9_counterexample :
    ¬ ((boundingBox 1).length = 1 ∧ ∀ r ∈ boundingBox 1, r = [(-1 : ℝ), 1]) := by
  intro h
  have h1 := h.1
  simp [boundingBox] at h1

/-- Claim C9, amended: `boundingBox d` is the transposed shape — a `2 × d`
array whose row 0 is filled with `-1` and row 1 with `1`, so that for every
dimension index `j < d` the per-dimension `[min, max]` column reads
`[-1, 1]`. -/
theorem c9_amended (d : ℕ) :
    (boundingBox d).length = 2 ∧
    (boundingBox d).getD 0 [] = List.replicate d (-1 : ℝ) ∧
    (boundingBox d).getD 1 [] = List.replicate d (1 : ℝ) ∧
    ∀ j, j < d → (boundingBox d).map (fun r => r.getD j 0) = [(-1 : ℝ), 1] := by
  refine ⟨by simp [boundingBox], rfl, rfl, ?_⟩
  intro j hj
  have h1 : (List.replicate d (-1 : ℝ)).getD j 0 = -1 := by
    rw [List.getD_eq_getElem _ _ (by simpa using hj)]
    simp
  have h2 : (List.replicate d (1 : ℝ)).getD j 0 = 1 := by
    rw [List.getD_eq_getElem _ _ (by simpa using hj)]
    simp
  simp only [boundingBox, List.map_cons, List.map_nil]
  rw [h1, h2]

/-- Claim C9, witness: the amended statement evaluated at dimension 2 and
dimension index 0. -/
theorem c9_witness :
    (boundingBox 2).map (fun r => r.getD 0 0) = [(-1 : ℝ), 1] ∧
    (boundingBox 2).length = 2 :=
  ⟨(c9_amended 2).2.2.2 0 (by norm_num), (c9_amended 2).1⟩

/-! ### Boundary projection (claim C3) -/

lemma rowSub_proj (p g : Point) (c q : ℝ) (hg : g.length = p.length) :
    rowSub p ((rowSmul c g).map fun x => x / q) =
      (List.range p.length).map fun k => p.getD k 0 - c * g.getD k 0 / q := by
  apply List.ext_getElem
  · simp [rowSub, rowSmul, hg]
  · intro i h1 h2
    have hip : i < p.length := by
      simpa [rowSub, rowSmul, hg] using h1
    have hig : i < g.length := by omega
    simp only [rowSub, rowSmul, List.getElem_zipWith, List.getElem_map,
      List.getElem_range]
    rw [List.getD_eq_getElem p 0 hip, List.getD_eq_getElem g 0 hig]

lemma projectPoint_eq_spec (df : Point → ℝ) (h0 : ℝ) (p : Point) :
    projectPoint df h0 p = projectPointSpec df h0 p := by
  unfold projectPoint projectPointSpec gradStep
  by_cases hd : 0 < df p
  · rw [if_pos hd, if_pos hd]
    exact rowSub_proj p _ (df p) _ (by simp [gradRow])
  · rw [if_neg hd, if_neg hd]

/-- Claim C3: the boundary projector leaves every point with non-positive
distance unchanged, and replaces every point with distance `d > 0` by
`p - d * grad / |grad|²` in a single (non-iterated) step, where `grad` is
the forward finite-difference gradient with per-axis step
`sqrt(machineEpsilon) * h0`; the code's row loop agrees with this
specification formula on every row. -/
theorem c3_projection (df : Point → ℝ) (h0 : ℝ) (ps : Points) :
    project df h0 ps = ps.map (projectPointSpec df h0) ∧
    ∀ p : Point, df p ≤ 0 → projectPointSpec df h0 p = p := by
  constructor
  · unfold project
    exact List.map_congr_left fun p _ => projectPoint_eq_spec df h0 p
  · intro p hp
    unfold projectPointSpec
    rw [if_neg (not_lt.mpr hp)]

/-- Claim C3, witness: a point of the half-space domain with non-positive
distance is untouched, and the array-level equation holds on a concrete
array. -/
theorem c3_witness :
    projectPointSpec dfHalf 1 [0] = [0] ∧
    project dfHalf 1 [[0]] = [[0]].map (projectPointSpec dfHalf 1) :=
  ⟨(c3_projection dfHalf 1 [[0]]).2 [0] (by norm_num [dfHalf]),
   (c3_projection dfHalf 1 [[0]]).1⟩

/-! ### Force law (claim C5) -/

/-- Claim C5: the per-edge scalar force of the force-computation step equals
`max((L0 - length)/length, 0)` with
`L0 = sizeField(midpoint) * (1 + 0.4/2^(D-1)) * (Σ len^D / Σ L0raw^D)^(1/D)`
exactly as the specification words it, it is never negative, and an edge at
least as long as its desired length exerts exactly zero force. -/
theorem c5_force_law (sizeFn : Point → ℝ) (dimension : ℕ) (ps : Points)
    (edges : List (ℕ × ℕ)) (e : ℕ × ℕ) :
    forceMag sizeFn dimension ps edges e = forceMagSpec sizeFn dimension ps edges e ∧
    0 ≤ forceMag sizeFn dimension ps edges e ∧
    (desiredEdgeLength sizeFn dimension ps edges e ≤ edgeLen ps e →
      forceMag sizeFn dimension ps edges e = 0) := by
  refine ⟨rfl, le_max_right _ _, fun h => ?_⟩
  unfold forceMag
  apply max_eq_right
  have hL : (0 : ℝ) ≤ edgeLen ps e := Real.sqrt_nonneg _
  rcases hL.eq_or_lt with hzero | hpos
  · rw [← hzero, div_zero]
  · exact div_nonpos_iff.mpr (Or.inr ⟨sub_nonpos.mpr h, le_of_lt hpos⟩)

/-- Claim C5, witness: on a degenerate concrete configuration (single
coincident-endpoint edge list taken empty, unit size field) the desired
length and the edge length are both zero, so the zero-force branch of the
theorem applies. -/
theorem c5_witness :
    desiredEdgeLength (fun _ => 1) 1 [[0]] [] (0, 0) ≤ edgeLen [[0]] (0, 0) ∧
    forceMag (fun _ => 1) 1 [[0]] [] (0, 0) = 0 := by
  have hlen : edgeLen [[(0 : ℝ)]] (0, 0) = 0 := by
    unfold edgeLen edgeVec
    rw [sqNorm_rowSub_self, Real.sqrt_zero]
  have hdes : desiredEdgeLength (fun _ => (1 : ℝ)) 1 [[0]] [] (0, 0) = 0 := by
    unfold desiredEdgeLength scaleFactor lengthPowSum sizePowSum
    simp [Real.zero_rpow]
  refine ⟨by rw [hlen, hdes], ?_⟩
  exact (c5_force_law (fun _ => 1) 1 [[0]] [] (0, 0)).2.2 (by rw [hlen, hdes])

/-! ### Division guards (claim C7) -/

/-- Claim C7, counterexample: the denominators of the relaxation divisions
are not clamped — a zero-length edge (two coincident rows) makes the force
divisor `edgeLength` exactly zero, refuting the guarded-division claim. -/
theorem c7_counterexample :
    ¬ ((∀ (ps : Points) (e : ℕ × ℕ), edgeLen ps e ≠ 0) ∧
      ∀ (df : Point → ℝ) (h0 : ℝ) (p : Point), 0 < df p →
        sqNorm (gradRow df (gradStep h0) p (df p)) ≠ 0) := by
  intro h
  apply h.1 [[0]] (0, 0)
  show Real.sqrt (sqNorm (rowSub (row [[0]] 0) (row [[0]] 0))) = 0
  rw [sqNorm_rowSub_self, Real.sqrt_zero]

/-- Claim C7, amended: no clamping exists; the force computation divides by
the raw edge length, which is exactly zero whenever an edge's endpoint rows
coincide, and the boundary projection divides by the raw squared gradient
norm, which is exactly zero for a locally constant distance field. -/
theorem c7_amended :
    (∀ (ps : Points) (e : ℕ × ℕ), row ps e.1 = row ps e.2 → edgeLen ps e = 0) ∧
    ∀ (c h0 : ℝ) (p : Point), sqNorm (gradRow (fun _ => c) (gradStep h0) p c) = 0 := by
  constructor
  · intro ps e he
    unfold edgeLen edgeVec
    rw [he, sqNorm_rowSub_self, Real.sqrt_zero]
  · intro c h0 p
    unfold sqNorm gradRow
    apply List.sum_eq_zero
    intro y hy
    simp only [List.map_map, List.mem_map, List.mem_range, Function.comp] at hy
    obtain ⟨k, _, rfl⟩ := hy
    simp

/-- Claim C7, witness: the amended statement evaluated at a concrete
coincident edge and a concrete constant distance field. -/
theorem c7_witness :
    edgeLen [[(0 : ℝ), 0]] (0, 0) = 0 ∧
    sqNorm (gradRow (fun _ => (5 : ℝ)) (gradStep 2) [0, 0] 5) = 0 :=
  ⟨c7_amended.1 [[(0 : ℝ), 0]] (0, 0) rfl, c7_amended.2 5 2 [0, 0]⟩

/-! ### The infinite retriangulation buffer (claim C10) -/

lemma esqrt_top : esqrt ⊤ = ⊤ := by
  unfold esqrt
  rw [if_pos rfl]

lemma sum_top_of_all_top (l : List EReal) (hne : l ≠ []) (h : ∀ x ∈ l, x = ⊤) :
    l.sum = ⊤ := by
  induction l with
  | nil => cases hne rfl
  | cons x t ih =>
    have hx : x = ⊤ := h x (List.mem_cons_self x t)
    rcases eq_or_ne t [] with rfl | hne2
    · simp [hx]
    · rw [List.sum_cons, ih hne2 fun z hz => h z (List.mem_cons_of_mem x hz), hx]
      exact EReal.top_add_top

lemma maxListE_top (l : List EReal) (h : ⊤ ∈ l) : maxListE l = ⊤ := by
  unfold maxListE
  induction l with
  | nil => simp at h
  | cons x t ih =>
    rw [List.foldr_cons]
    rcases List.mem_cons.mp h with rfl | ht
    · exact max_eq_left le_top
    · rw [ih ht]
      exact max_eq_right le_top

lemma zipWith_topRow (p : Point) :
    List.zipWith (fun x y => ((x : ℝ) - y : EReal) * ((x : ℝ) - y : EReal)) p
      (p.map fun _ => (⊤ : EReal)) = p.map fun _ => (⊤ : EReal) := by
  induction p with
  | nil => rfl
  | cons a t ih =>
    rw [List.map_cons, List.zipWith_cons_cons, ih, EReal.sub_top,
      EReal.bot_mul_bot]

lemma rowDispE_top (p : Point) (hp : p ≠ []) :
    rowDispE p (p.map fun _ => (⊤ : EReal)) = ⊤ := by
  unfold rowDispE
  rw [zipWith_topRow]
  have hall : ∀ x ∈ p.map fun _ => (⊤ : EReal), x = ⊤ := by
    intro x hx
    obtain ⟨a, _, rfl⟩ := List.mem_map.mp hx
    rfl
  rw [sum_top_of_all_top _ (by simpa using hp) hall, esqrt_top]

lemma retriTest_initState (P : Params) (ps : Points) (h1 : ps ≠ [])
    (h2 : ps.getD 0 [] ≠ []) : retriTest P (initState P ps) := by
  obtain ⟨p, t, rfl⟩ := List.exists_cons_of_ne_nil h1
  have hp : p ≠ [] := by simpa using h2
  unfold retriTest
  have hpoints : (initState P (p :: t)).points = p :: t := rfl
  have hbuf : (initState P (p :: t)).retriBuffer =
      (p :: t).map fun r => r.map fun _ => (⊤ : EReal) := rfl
  rw [hpoints, hbuf]
  have hmem : (⊤ : EReal) ∈ List.zipWith rowDispE (p :: t)
      ((p :: t).map fun r => r.map fun _ => (⊤ : EReal)) := by
    have hd := rowDispE_top p hp
    rw [List.map_cons, List.zipWith_cons_cons, hd]
    exact List.mem_cons_self _ _
  rw [maxListE_top _ hmem]
  exact EReal.coe_lt_top _

/-- Claim C10: because the retriangulation buffer starts filled with
`INFINITY`, the displacement test of the first loop iteration is satisfied
for every non-degenerate initial point array (at least one point, at least
one coordinate), so the first iteration always enters the retriangulation
branch and the edge array read by the force step is the freshly computed
one. -/
theorem c10_first_iteration (P : Params) (ps : Points) (h1 : ps ≠ [])
    (h2 : ps.getD 0 [] ≠ []) :
    retriTest P (initState P ps) ∧
    (distmeshStep P (initState P ps)).triangulation = (retriangulate P ps).1 ∧
    (distmeshStep P (initState P ps)).edgeIndices = (retriangulate P ps).2 := by
  have hT := retriTest_initState P ps h1 h2
  refine ⟨hT, ?_, ?_⟩
  · show (retriUpdate P (initState P ps)).1 = _
    unfold retriUpdate
    rw [if_pos hT]
    rfl
  · show (retriUpdate P (initState P ps)).2.1 = _
    unfold retriUpdate
    rw [if_pos hT]
    rfl

/-- Claim C10, witness: the statement evaluated on a concrete
one-dimensional run with a single initial point. -/
theorem c10_witness :
    retriTest exampleParams (initState exampleParams [[2]]) ∧
    (distmeshStep exampleParams (initState exampleParams [[2]])).triangulation =
      (retriangulate exampleParams [[2]]).1 ∧
    (distmeshStep exampleParams (initState exampleParams [[2]])).edgeIndices =
      (retriangulate exampleParams [[2]]).2 :=
  c10_first_iteration exampleParams [[2]] (by simp) (by simp)

/-! ### Centroid filtering (claim C4) -/

lemma sum_map_div {α : Type} (l : List α) (g : α → ℝ) (c : ℝ) :
    (l.map fun a => g a / c).sum = (l.map g).sum / c := by
  induction l with
  | nil => simp
  | cons x t ih => simp [ih, add_div]

lemma foldl_centroid_length (c : ℝ) (f : ℕ → Point) (idxs : List ℕ)
    (init : Point) (h : ∀ j ∈ idxs, (f j).length = init.length) :
    (idxs.foldl (fun acc j => rowAdd acc ((f j).map fun x => x / c)) init).length
      = init.length := by
  induction idxs generalizing init with
  | nil => rfl
  | cons j t ih =>
    rw [List.foldl_cons]
    have hr : (f j).length = init.length := h j (List.mem_cons_self j t)
    have hlen : (rowAdd init ((f j).map fun x => x / c)).length = init.length := by
      simp [rowAdd, hr]
    rw [ih (rowAdd init ((f j).map fun x => x / c))
      (fun j2 hj2 => by rw [hlen]; exact h j2 (List.mem_cons_of_mem j hj2)), hlen]

lemma foldl_centroid_getD (c : ℝ) (f : ℕ → Point) (idxs : List ℕ)
    (init : Point) (m : ℕ) (hm : m < init.length)
    (h : ∀ j ∈ idxs, (f j).length = init.length) :
    (idxs.foldl (fun acc j => rowAdd acc ((f j).map fun x => x / c)) init).getD m 0
      = init.getD m 0 + (idxs.map fun j => (f j).getD m 0 / c).sum := by
  induction idxs generalizing init with
  | nil => simp
  | cons j t ih =>
    rw [List.foldl_cons, List.map_cons, List.sum_cons]
    have hr : (f j).length = init.length := h j (List.mem_cons_self j t)
    have hlen : (rowAdd init ((f j).map fun x => x / c)).length = init.length := by
      simp [rowAdd, hr]
    have hstep : (rowAdd init ((f j).map fun x => x / c)).getD m 0 =
        init.getD m 0 + (f j).getD m 0 / c := by
      rw [List.getD_eq_getElem _ _ (by rw [hlen]; exact hm)]
      unfold rowAdd
      rw [List.getElem_zipWith, List.getElem_map,
        ← List.getD_eq_getElem init 0 hm,
        ← List.getD_eq_getElem (f j) 0 (by omega)]
    rw [ih (rowAdd init ((f j).map fun x => x / c)) (by rw [hlen]; exact hm)
      (fun j2 hj2 => by rw [hlen]; exact h j2 (List.mem_cons_of_mem j hj2)), hstep]
    ring

lemma centroid_eq_spec (d : ℕ) (ps : Points) (t : Simplex)
    (h : ∀ j, j < d + 1 → (row ps (t.getD j 0)).length = d) :
    centroid d ps t = centroidSpec d ps t := by
  have hlen : ∀ j ∈ List.range (d + 1),
      (row ps (t.getD j 0)).length = (List.replicate d (0 : ℝ)).length := by
    intro j hj
    rw [List.length_replicate]
    exact h j (List.mem_range.mp hj)
  apply List.ext_getElem
  · show (centroid d ps t).length = (centroidSpec d ps t).length
    unfold centroid centroidSpec
    rw [foldl_centroid_length ((d : ℝ) + 1) (fun j => row ps (t.getD j 0))
      (List.range (d + 1)) (List.replicate d 0) hlen]
    simp
  · intro i h1 h2
    have hid : i < d := by
      have := h1
      unfold centroid at this
      rw [foldl_centroid_length ((d : ℝ) + 1) (fun j => row ps (t.getD j 0))
        (List.range (d + 1)) (List.replicate d 0) hlen] at this
      simpa using this
    rw [← List.getD_eq_getElem (centroid d ps t) 0 h1,
      ← List.getD_eq_getElem (centroidSpec d ps t) 0 h2]
    have hinit : i < (List.replicate d (0 : ℝ)).length := by simpa using hid
    have hzero : (List.replicate d (0 : ℝ)).getD i 0 = 0 := by
      rw [List.getD_eq_getElem _ _ hinit]
      simp
    show (centroid d ps t).getD i 0 = (centroidSpec d ps t).getD i 0
    unfold centroid centroidSpec
    rw [foldl_centroid_getD ((d : ℝ) + 1) (fun j => row ps (t.getD j 0))
      (List.range (d + 1)) (List.replicate d 0) i hinit hlen, hzero, zero_add]
    rw [List.getD_eq_getElem _ _ (by simpa using hid), List.getElem_map,
      List.getElem_range]
    exact sum_map_div (List.range (d + 1)) (fun j => (row ps (t.getD j 0)).getD i 0)
      ((d : ℝ) + 1)

/-- Claim C4: whenever the retriangulation criterion fires, the step's new
simplex array consists of exactly those Delaunay simplices whose centroid
(the per-coordinate mean of the `D + 1` vertex rows) evaluates strictly
below `-geometryEvaluationThreshold * h0` under the distance field, the
edge array is rebuilt from the surviving simplices, and the snapshot buffer
becomes the current points. -/
theorem c4_retriangulation (P : Params) (s : LoopState)
    (hfire : retriTest P s)
    (hrows : ∀ t ∈ P.delaunay s.points, ∀ j, j < P.dimension + 1 →
      (row s.points (t.getD j 0)).length = P.dimension) :
    (distmeshStep P s).triangulation = (P.delaunay s.points).filter
      (fun t => decide (P.distanceFunction (centroidSpec P.dimension s.points t) <
        -P.geometryEvaluationThreshold * P.initialPointDistance)) ∧
    (distmeshStep P s).edgeIndices =
      find_unique_bars (P.dimension + 1) ((distmeshStep P s).triangulation) ∧
    (distmeshStep P s).retriBuffer =
      s.points.map fun r => r.map fun x => ((x : ℝ) : EReal) := by
  have hupd : retriUpdate P s = ((retriangulate P s.points).1,
      (retriangulate P s.points).2,
      s.points.map fun r => r.map fun x => ((x : ℝ) : EReal)) := by
    unfold retriUpdate
    rw [if_pos hfire]
  have htri : (distmeshStep P s).triangulation = (retriangulate P s.points).1 := by
    show (retriUpdate P s).1 = _
    rw [hupd]
  refine ⟨?_, ?_, ?_⟩
  · rw [htri]
    show (P.delaunay s.points).filter _ = (P.delaunay s.points).filter _
    apply List.filter_congr
    intro t ht
    rw [centroid_eq_spec P.dimension s.points t (hrows t ht)]
  · show (retriUpdate P s).2.1 = _
    rw [hupd, htri]
    rfl
  · show (retriUpdate P s).2.2 = _
    rw [hupd]

/-- Claim C4, witness: the statement on a concrete one-point,
one-dimensional state whose Delaunay collaborator returns one simplex. -/
theorem c4_witness :
    (distmeshStep exampleParams2 (initState exampleParams2 [[0]])).triangulation =
      (exampleParams2.delaunay [[(0 : ℝ)]]).filter
        (fun t => decide (exampleParams2.distanceFunction
          (centroidSpec exampleParams2.dimension [[(0 : ℝ)]] t) <
          -exampleParams2.geometryEvaluationThreshold *
            exampleParams2.initialPointDistance)) ∧
    (distmeshStep exampleParams2 (initState exampleParams2 [[0]])).edgeIndices =
      find_unique_bars (exampleParams2.dimension + 1)
        ((distmeshStep exampleParams2 (initState exampleParams2 [[0]])).triangulation) ∧
    (distmeshStep exampleParams2 (initState exampleParams2 [[0]])).retriBuffer =
      [[(0 : ℝ)]].map fun r => r.map fun x => ((x : ℝ) : EReal) :=
  c4_retriangulation exampleParams2 (initState exampleParams2 [[0]])
    (retriTest_initState _ _ (by simp) (by simp))
    (by
      intro t ht j hj
      have ht2 : t = [0, 0] := by simpa [exampleParams2, exampleParams] using ht
      subst ht2
      have hg : ([0, 0] : List ℕ).getD j 0 = 0 := by
        rcases j with _ | _ | j <;> simp
      rw [hg]
      rfl)

/-! ### Loop termination (claim C6) -/

lemma iterState_shift (P : Params) (s : LoopState) (n : ℕ) :
    iterState P (distmeshStep P s) n = iterState P s (n + 1) := by
  induction n with
  | zero => rfl
  | succ n ih =>
    show distmeshStep P (iterState P (distmeshStep P s) n) = _
    rw [ih]
    rfl

lemma stoppedAt_shift (P : Params) (s : LoopState) (j : ℕ) :
    stoppedAt P (distmeshStep P s) j ↔ stoppedAt P s (j + 1) := by
  unfold stoppedAt
  rw [iterState_shift, iterState_shift]

lemma distmeshLoop_spec (P : Params) :
    ∀ (n : ℕ) (s : LoopState),
      (distmeshLoop P n s).2 ≤ n ∧
      (distmeshLoop P n s).1 = iterState P s (distmeshLoop P n s).2 ∧
      (∀ j, j + 1 < (distmeshLoop P n s).2 → ¬ stoppedAt P s j) ∧
      ((distmeshLoop P n s).2 < n →
        0 < (distmeshLoop P n s).2 ∧ stoppedAt P s ((distmeshLoop P n s).2 - 1)) := by
  intro n
  induction n with
  | zero =>
    intro s
    refine ⟨le_rfl, rfl, ?_, ?_⟩
    · intro j hj
      simp [distmeshLoop] at hj
    · intro hlt
      simp [distmeshLoop] at hlt
  | succ n ih =>
    intro s
    by_cases h : stopNow P s.points (distmeshStep P s).points
    · have hloop : distmeshLoop P (n + 1) s = (distmeshStep P s, 1) := by
        show (if stopNow P s.points (distmeshStep P s).points then _ else _) = _
        rw [if_pos h]
      rw [hloop]
      refine ⟨by omega, rfl, ?_, ?_⟩
      · intro j hj
        omega
      · intro _
        exact ⟨one_pos, h⟩
    · have hloop : distmeshLoop P (n + 1) s =
          ((distmeshLoop P n (distmeshStep P s)).1,
           (distmeshLoop P n (distmeshStep P s)).2 + 1) := by
        show (if stopNow P s.points (distmeshStep P s).points then _ else _) = _
        rw [if_neg h]
      obtain ⟨ih1, ih2, ih3, ih4⟩ := ih (distmeshStep P s)
      rw [hloop]
      refine ⟨by omega, ?_, ?_, ?_⟩
      · show (distmeshLoop P n (distmeshStep P s)).1 = _
        rw [ih2, iterState_shift]
      · intro j hj
        cases j with
        | zero => exact h
        | succ m =>
          have hm : m + 1 < (distmeshLoop P n (distmeshStep P s)).2 := by omega
          intro hc
          exact ih3 m hm ((stoppedAt_shift P s m).mpr hc)
      · intro hlt
        have hk : (distmeshLoop P n (distmeshStep P s)).2 < n := by omega
        obtain ⟨hpos, hstop⟩ := ih4 hk
        refine ⟨by omega, ?_⟩
        have := (stoppedAt_shift P s _).mp hstop
        have harith : (distmeshLoop P n (distmeshStep P s)).2 - 1 + 1 =
            (distmeshLoop P n (distmeshStep P s)).2 := by omega
        rw [harith] at this
        have harith2 : (distmeshLoop P n (distmeshStep P s)).2 + 1 - 1 =
            (distmeshLoop P n (distmeshStep P s)).2 := by omega
        rw [harith2]
        exact this

/-- Claim C6: the relaxation loop executes at most `maxSteps` iterations;
it returns, in all cases, the state reached after exactly the executed
number of iterations (whose points and triangulation are the pair returned
by `distmesh`); no iteration strictly before the last executed one
satisfied the movement-threshold stop criterion; and whenever the loop
stops short of `maxSteps` it is precisely because the last executed
iteration satisfied it — hitting the cap is not an error and still yields
the current mesh. -/
theorem c6_termination (P : Params) (initialPoints : Points) :
    (distmeshLoop P P.maxSteps (initState P initialPoints)).2 ≤ P.maxSteps ∧
    distmesh P initialPoints =
      ((iterState P (initState P initialPoints)
          (distmeshLoop P P.maxSteps (initState P initialPoints)).2).points,
       (iterState P (initState P initialPoints)
          (distmeshLoop P P.maxSteps (initState P initialPoints)).2).triangulation) ∧
    (∀ j, j + 1 < (distmeshLoop P P.maxSteps (initState P initialPoints)).2 →
      ¬ stoppedAt P (initState P initialPoints) j) ∧
    ((distmeshLoop P P.maxSteps (initState P initialPoints)).2 < P.maxSteps →
      0 < (distmeshLoop P P.maxSteps (initState P initialPoints)).2 ∧
      stoppedAt P (initState P initialPoints)
        ((distmeshLoop P P.maxSteps (initState P initialPoints)).2 - 1)) := by
  obtain ⟨h1, h2, h3, h4⟩ := distmeshLoop_spec P P.maxSteps (initState P initialPoints)
  refine ⟨h1, ?_, h3, h4⟩
  show ((distmeshLoop P P.maxSteps (initState P initialPoints)).1.points,
    (distmeshLoop P P.maxSteps (initState P initialPoints)).1.triangulation) = _
  rw [h2]

/-! ### Fixed points (claim C1) -/

lemma getD_set_ne {α : Type} (l : List α) (j i : ℕ) (v d : α) (h : j ≠ i) :
    (l.set j v).getD i d = l.getD i d := by
  rw [List.getD_eq_getElem?_getD, List.getD_eq_getElem?_getD,
    List.getElem?_set_ne h]

lemma row_set_ne (ps : Points) (j i : ℕ) (v : Point) (h : j ≠ i) :
    row (ps.set j v) i = row ps i :=
  getD_set_ne ps j i v [] h

lemma integrateFirst_row (P : Params) (acc : Points) (ef : (ℕ × ℕ) × Point)
    (i : ℕ) (hi : i < P.fixedCount) :
    row (integrateFirst P acc ef) i = row acc i := by
  unfold integrateFirst
  by_cases h : P.fixedCount ≤ ef.1.1
  · rw [if_pos h]
    exact row_set_ne acc _ i _ (by omega)
  · rw [if_neg h]

lemma integrateEdge_row (P : Params) (acc : Points) (ef : (ℕ × ℕ) × Point)
    (i : ℕ) (hi : i < P.fixedCount) :
    row (integrateEdge P acc ef) i = row acc i := by
  unfold integrateEdge
  by_cases h : P.fixedCount ≤ ef.1.2
  · rw [if_pos h, row_set_ne _ _ i _ (by omega)]
    exact integrateFirst_row P acc ef i hi
  · rw [if_neg h]
    exact integrateFirst_row P acc ef i hi

lemma integrateFirst_length (P : Params) (acc : Points) (ef : (ℕ × ℕ) × Point) :
    (integrateFirst P acc ef).length = acc.length := by
  unfold integrateFirst
  split <;> simp

lemma integrateEdge_length (P : Params) (acc : Points) (ef : (ℕ × ℕ) × Point) :
    (integrateEdge P acc ef).length = acc.length := by
  unfold integrateEdge
  split <;> simp [integrateFirst_length]

lemma integrate_row (P : Params) (ps : Points) (edges : List (ℕ × ℕ)) (i : ℕ)
    (hi : i < P.fixedCount) : row (integrate P ps edges) i = row ps i := by
  unfold integrate
  generalize (edges.zip (edges.map fun e =>
    forceVec P.elementSizeFunction P.dimension ps edges e)) = l
  induction l generalizing ps with
  | nil => rfl
  | cons ef t ih =>
    rw [List.foldl_cons, ih (integrateEdge P ps ef), integrateEdge_row P ps ef i hi]

lemma integrate_length (P : Params) (ps : Points) (edges : List (ℕ × ℕ)) :
    (integrate P ps edges).length = ps.length := by
  unfold integrate
  generalize (edges.zip (edges.map fun e =>
    forceVec P.elementSizeFunction P.dimension ps edges e)) = l
  induction l generalizing ps with
  | nil => rfl
  | cons ef t ih =>
    rw [List.foldl_cons, ih (integrateEdge P ps ef), integrateEdge_length]

lemma project_row (df : Point → ℝ) (h0 : ℝ) (ps : Points) (i : ℕ)
    (hi : i < ps.length) :
    row (project df h0 ps) i = projectPoint df h0 (row ps i) := by
  unfold project row
  rw [List.getD_eq_getElem _ _ (by simpa using hi), List.getElem_map,
    List.getD_eq_getElem _ _ hi]

/-- Claim C1, amended: the force-integration step never moves a row of the
fixed-points range, and the boundary-projection step leaves every point with
non-positive distance unchanged; hence an iteration preserves every fixed
row whose point lies inside the domain (or on its boundary) — the
unconditional claim fails because the projection, which receives no
information about fixed points, moves any point with positive distance. -/
theorem c1_amended (P : Params) (s : LoopState) (i : ℕ)
    (hfix : i < P.fixedCount) (hlen : i < s.points.length)
    (hin : P.distanceFunction (row s.points i) ≤ 0) :
    row (distmeshStep P s).points i = row s.points i := by
  have h1 : row (integrate P s.points (retriUpdate P s).2.1) i = row s.points i :=
    integrate_row P s.points _ i hfix
  have h2 : i < (integrate P s.points (retriUpdate P s).2.1).length := by
    rw [integrate_length]
    exact hlen
  show row (project P.distanceFunction P.initialPointDistance
    (integrate P s.points (retriUpdate P s).2.1)) i = row s.points i
  rw [project_row _ _ _ i h2, h1]
  unfold projectPoint
  rw [if_neg (not_lt.mpr hin)]

/-- Claim C1, witness: the amended statement on a concrete one-dimensional
run whose single fixed point lies inside the half-space domain. -/
theorem c1_witness :
    row (distmeshStep exampleParams (initState exampleParams [[0]])).points 0 =
      row [[(0 : ℝ)]] 0 :=
  c1_amended exampleParams (initState exampleParams [[0]]) 0 Nat.one_pos
    Nat.one_pos (by norm_num [exampleParams, initState, dfHalf, row])

/-- Claim C1, counterexample: a relaxation run whose single point is fixed
(`fixedPoints.rows() = 1`) but starts outside the domain (`dfHalf [2] = 1`)
has that fixed row moved by the boundary-projection step of the very first
iteration — from `[2]` to `[1]` — so fixed-point coordinates are not
preserved by every iteration. -/
theorem c1_counterexample :
    0 < exampleParams.fixedCount ∧
    row (distmeshStep exampleParams (initState exampleParams [[2]])).points 0 ≠
      row (initState exampleParams [[2]]).points 0 := by
  refine ⟨Nat.one_pos, ?_⟩
  have hmach : (0 : ℝ) < machineEpsilon := by
    rw [machineEpsilon]
    positivity
  have heps : gradStep 1 ≠ 0 := by
    unfold gradStep
    rw [mul_one]
    exact ne_of_gt (Real.sqrt_pos.mpr hmach)
  have hgrad : gradRow dfHalf (gradStep 1) [2] (dfHalf [2]) = [1] := by
    have hred : gradRow dfHalf (gradStep 1) [2] (dfHalf [2]) =
        [(2 + gradStep 1 - 1 - (2 - 1)) / gradStep 1] := rfl
    have h3 : ((2 : ℝ) + gradStep 1 - 1 - (2 - 1)) / gradStep 1 = 1 := by
      rw [show (2 : ℝ) + gradStep 1 - 1 - (2 - 1) = gradStep 1 by ring]
      exact div_self heps
    rw [hred, h3]
  have hproj : projectPoint dfHalf 1 [2] = [1] := by
    unfold projectPoint
    rw [if_pos (by norm_num [dfHalf] : (0 : ℝ) < dfHalf [2])]
    rw [hgrad]
    norm_num [sqNorm, rowSmul, rowSub, dfHalf]
  have hedges : (retriUpdate exampleParams (initState exampleParams [[2]])).2.1
      = [] := by
    unfold retriUpdate
    rw [if_pos (retriTest_initState exampleParams [[2]] (by simp) (by simp))]
    rfl
  have hstep : (distmeshStep exampleParams (initState exampleParams [[2]])).points
      = [[(1 : ℝ)]] := by
    show project exampleParams.distanceFunction exampleParams.initialPointDistance
      (integrate exampleParams (initState exampleParams [[2]]).points
        (retriUpdate exampleParams (initState exampleParams [[2]])).2.1) = [[(1 : ℝ)]]
    rw [hedges]
    show [projectPoint dfHalf 1 [2]] = [[(1 : ℝ)]]
    rw [hproj]
  rw [hstep]
  show [(1 : ℝ)] ≠ [(2 : ℝ)]
  norm_num

end Distmesh
